import Mathlib

/-!
Verification of the Xenosumedia justified-gallery layout engine and
thumbnail build pipeline.

The layout engine (`computeRows` and its helpers) is embedded from
`src/App.tsx`; JavaScript numbers are modelled as exact rationals (ℚ),
and the 32-bit string hash (`getFilenameSeed`) as natural-number
arithmetic modulo 2^32.  The browser-side asynchronous image loading
(`loadImageAspect`) is modelled as a function of the load outcome.
The thumbnail build script's per-image width/quality selection is
embedded from `scripts` sources.
-/

/-- A gallery item with a resolved aspect ratio (`JustifiedItem` in the
source; the presentational `alt`/`category` fields play no role in the
layout algorithm and are omitted). -/
structure JustifiedItem where
  src : String
  aspectRatio : ℚ
  deriving DecidableEq, Inhabited

/-- One laid-out item of a row: the item plus its render width and
height (the anonymous record in `JustifiedRow.items` in the source; the
`globalIndex` bookkeeping field is presentational and omitted). -/
structure SizedItem where
  item : JustifiedItem
  width : ℚ
  height : ℚ
  deriving DecidableEq, Inhabited

/-- A justified row: items with sizes plus the shared row height. -/
structure JustifiedRow where
  items : List SizedItem
  height : ℚ
  deriving DecidableEq, Inhabited

/-- The suffix of a character list after its last slash (JS
`split('/').pop()`: the last segment of a slash-split is exactly the
longest slash-free suffix). -/
def afterLastSlash (cs : List Char) : List Char :=
  (cs.reverse.takeWhile (fun c => c ≠ '/')).reverse

/-- The filename part extraction of `getFilenameSeed`:
JS `s.split('?')[0].split('#')[0].split('/').pop() || s`.
`split(sep)[0]` is the prefix before the first separator, so it is
`takeWhile (· ≠ sep)`; the `|| s` fallback fires when the popped
segment is the empty string, which is falsy in JS. -/
def filenamePart (s : String) : String :=
  let beforeQuery := s.data.takeWhile (fun c => c ≠ '?')
  let beforeHash := beforeQuery.takeWhile (fun c => c ≠ '#')
  let name := afterLastSlash beforeHash
  if name = [] then s else String.mk name

/-- One step of FNV-1a: `h ^= c; h = Math.imul(h, 16777619); h >>>= 0`,
i.e. xor then 32-bit multiply. -/
def fnv1aStep (h c : ℕ) : ℕ := ((h ^^^ c) * 16777619) % 4294967296

/-- The FNV-1a style hash loop of `getFilenameSeed`, starting from the
FNV basis 2166136261.  JS `charCodeAt` yields UTF-16 code units, which
coincide with `Char.toNat` on the Basic Multilingual Plane (all asset
filenames in this repository are ASCII). -/
def fnvHash (name : String) : ℕ :=
  name.data.foldl (fun h c => fnv1aStep h c.toNat) 2166136261

/-- `getFilenameSeed` from `src/App.tsx`: hash the filename part of the
URL and map it to `[0,1)` via `(h % 100000) / 100000`. -/
def getFilenameSeed (s : String) : ℚ :=
  ((fnvHash (filenamePart s)) % 100000 : ℕ) / 100000

/-- The row constructor inside `pushRow`: per-row jitter from the first
item's seed, exact-fill height from the total aspect, and the final
height clamped by `Math.max(80, Math.min(targetRowHeight, height * 1.2))`.
Only ever applied to non-empty `rowItems` (the source indexes
`rowItems[0]`; `headI` returns that first element). -/
def mkRow (containerWidth gap baseRowHeight : ℚ)
    (rowItems : List JustifiedItem) : JustifiedRow :=
  let seed := getFilenameSeed rowItems.headI.src
  let jitter := 1 + (seed - 1/2) * (12/100)
  let targetRowHeight := baseRowHeight * jitter
  let totalAspect := (rowItems.map (fun it => it.aspectRatio)).sum
  let totalGap := gap * ((rowItems.length : ℚ) - 1)
  let height := (containerWidth - totalGap) / totalAspect
  let finalHeight := max 80 (min targetRowHeight (height * (6/5)))
  let itemsWithSizes :=
    rowItems.map (fun it => ⟨it, it.aspectRatio * finalHeight, finalHeight⟩)
  ⟨itemsWithSizes, finalHeight⟩

/-- `pushRow` from `computeRows`: append the completed row to `rows`,
doing nothing for an empty candidate row. -/
def pushRow (containerWidth gap baseRowHeight : ℚ)
    (rows : List JustifiedRow) (rowItems : List JustifiedItem) : List JustifiedRow :=
  match rowItems with
  | [] => rows
  | _ :: _ => rows ++ [mkRow containerWidth gap baseRowHeight rowItems]

/-- The `for (const it of items)` loop of `computeRows`, with the
trailing `if (currentRow.length) pushRow(currentRow)` folded into the
empty-list case.  `currentWidthAtBase` accumulates
`it.aspectRatio * baseRowHeight` per item; the break test compares
`currentWidthAtBase + tentativeWidth + gap * currentRow.length`
against `containerWidth * 1.15`. -/
def computeRowsLoop (containerWidth gap baseRowHeight : ℚ) :
    List JustifiedItem → List JustifiedItem → ℚ → List JustifiedRow → List JustifiedRow
  | [], currentRow, _, rows =>
      if currentRow.length ≠ 0 then
        pushRow containerWidth gap baseRowHeight rows currentRow
      else rows
  | it :: rest, currentRow, currentWidthAtBase, rows =>
      let tentativeWidth := it.aspectRatio * baseRowHeight
      let gaps := gap * (currentRow.length : ℚ)
      if 0 < currentRow.length ∧
          currentWidthAtBase + tentativeWidth + gaps > containerWidth * (23/20) then
        computeRowsLoop containerWidth gap baseRowHeight rest [it] tentativeWidth
          (pushRow containerWidth gap baseRowHeight rows currentRow)
      else
        computeRowsLoop containerWidth gap baseRowHeight rest (currentRow ++ [it])
          (currentWidthAtBase + tentativeWidth) rows

/-- `computeRows` from `src/App.tsx`: degenerate inputs yield no rows;
otherwise run the greedy row-fill loop. -/
def computeRows (items : List JustifiedItem)
    (containerWidth gap baseRowHeight : ℚ) : List JustifiedRow :=
  if containerWidth ≤ 0 ∨ items.length = 0 then []
  else computeRowsLoop containerWidth gap baseRowHeight items [] 0 []

/-- The item sequence of a row, stripped of layout sizes. -/
def rowItemsOf (r : JustifiedRow) : List JustifiedItem :=
  r.items.map (fun s => s.item)

/-- Concatenation of all rows' item sequences, in order. -/
def flattenRows (rows : List JustifiedRow) : List JustifiedItem :=
  (rows.map rowItemsOf).flatten

/-- Sum of the final item widths of a row. -/
def rowWidthSum (r : JustifiedRow) : ℚ :=
  (r.items.map (fun s => s.width)).sum

/-- Exact width of a candidate row at the base row height, written from
the spec's wording for the row-break rule (refinement reference for the
loop's incremental accumulator): the sum of `aspectRatio * baseRowHeight`
over the row plus one inter-item gap between consecutive items. -/
def estimateWidth (gap baseRowHeight : ℚ) (row : List JustifiedItem) : ℚ :=
  (row.map (fun it => it.aspectRatio * baseRowHeight)).sum +
    gap * ((row.length : ℚ) - 1)

/-- Written from the spec's wording (refinement reference): greedy
partition that closes the current row exactly when it is non-empty and
adding the next item would push the estimated width past
`containerWidth * 1.15`. -/
def specPartitionGo (containerWidth gap baseRowHeight : ℚ) :
    List JustifiedItem → List JustifiedItem → List (List JustifiedItem)
  | [], cur => if cur = [] then [] else [cur]
  | it :: rest, cur =>
      if cur ≠ [] ∧
          estimateWidth gap baseRowHeight (cur ++ [it]) > containerWidth * (23/20) then
        cur :: specPartitionGo containerWidth gap baseRowHeight rest [it]
      else
        specPartitionGo containerWidth gap baseRowHeight rest (cur ++ [it])

/-- Written from the spec's wording (refinement reference): the row
partition of an item list, starting from an empty candidate row. -/
def specPartition (items : List JustifiedItem)
    (containerWidth gap baseRowHeight : ℚ) : List (List JustifiedItem) :=
  specPartitionGo containerWidth gap baseRowHeight items []

/-- The exact-fill height of a laid-out row: the height at which the
row's total width (widths plus gaps) would exactly equal the container
width, recomputed from the row's own items. -/
def rowExactFill (containerWidth gap : ℚ) (r : JustifiedRow) : ℚ :=
  (containerWidth - gap * ((r.items.length : ℚ) - 1)) /
    ((r.items.map (fun s => s.item.aspectRatio)).sum)

/-- Outcome of loading an image in the browser: the `onload` event with
the image's natural dimensions, or the `onerror` event.  This indexes
the asynchronous callback structure of `loadImageAspect`. -/
inductive ImageLoadResult where
  | loaded (naturalWidth naturalHeight : ℕ)
  | failed
  deriving DecidableEq

/-- `loadImageAspect` from the gallery source: resolves `1` on a load
error, resolves `1` when `naturalHeight` is `0`, and otherwise resolves
`naturalWidth / naturalHeight`.  The promise never rejects. -/
def loadImageAspect : ImageLoadResult → ℚ
  | .loaded w h => if h = 0 then 1 else (w : ℚ) / h
  | .failed => 1

/-- The per-item aspect resolution in the gallery's `worker`: the loaded
(or defaulted) ratio gets a deterministic per-item tweak from the
filename seed (±10%) and is clamped to `[0.3, 3.5]` via
`Math.max(0.3, Math.min(3.5, ratio * tweak))`. -/
def resolveAspect (src : String) (res : ImageLoadResult) : ℚ :=
  let ratio := loadImageAspect res
  let r := getFilenameSeed src
  let tweak := 1 + (r - 1/2) * (2/10)
  max (3/10) (min (35/10) (ratio * tweak))

/-- The fixed target widths of the thumbnail build script. -/
def thumbWidths : List ℕ := [400, 800, 1200]

/-- `qualityFor` from the thumbnail build script:
`w <= 400 ? 40 : w <= 800 ? 38 : 35`. -/
def qualityFor (w : ℕ) : ℕ :=
  if w ≤ 400 then 40 else if w ≤ 800 then 38 else 35

/-- One produced thumbnail variant: the resize width handed to the
encoder and the encoding quality. -/
structure ThumbVariant where
  width : ℕ
  quality : ℕ
  deriving DecidableEq

/-- The per-image variant computation of `build` in the thumbnail
script: for each target width `w`, resize to
`target = Math.min(origWidth, w)` at quality `qualityFor w`
(`withoutEnlargement` makes the resize width exactly `target`). -/
def buildVariants (origWidth : ℕ) : List ThumbVariant :=
  thumbWidths.map (fun w => ⟨min origWidth w, qualityFor w⟩)

/-- The binary-search loop of `lowerBound`, with an explicit fuel
parameter standing for the loop's termination (the search space `hi - lo`
shrinks every iteration, so `arr.length` rounds of fuel always suffice).
JS `(lo + hi) >>> 1` truncates `lo + hi` to 32 bits before halving. -/
def lowerBoundGo (arr : List ℚ) (target : ℚ) : ℕ → ℕ → ℕ → ℕ
  | 0, lo, _ => lo
  | fuel + 1, lo, hi =>
      if lo < hi then
        let mid := (lo + hi) % 4294967296 / 2
        if arr.getD mid 0 < target then lowerBoundGo arr target fuel (mid + 1) hi
        else lowerBoundGo arr target fuel lo mid
      else lo

/-- `lowerBound` from the gallery source: least index whose element is
not below `target`, found by binary search over `[0, arr.length)`. -/
def lowerBound (arr : List ℚ) (target : ℚ) : ℕ :=
  lowerBoundGo arr target arr.length 0 arr.length

/-! ## Helper lemmas -/

theorem getFilenameSeed_bounds (s : String) :
    0 ≤ getFilenameSeed s ∧ getFilenameSeed s < 1 := by
  constructor
  · unfold getFilenameSeed
    positivity
  · unfold getFilenameSeed
    rw [div_lt_one (by norm_num)]
    have h : fnvHash (filenamePart s) % 100000 < 100000 :=
      Nat.mod_lt _ (by norm_num)
    exact_mod_cast h

theorem getFilenameSeed_eq (s : String) (n : ℕ)
    (h : fnvHash (filenamePart s) % 100000 = n) :
    getFilenameSeed s = (n : ℚ) / 100000 := by
  rw [getFilenameSeed, h]

theorem rowItemsOf_mkRow (cw g b : ℚ) (l : List JustifiedItem) :
    rowItemsOf (mkRow cw g b l) = l := by
  simp [rowItemsOf, mkRow, Function.comp_def]

theorem flattenRows_append (rows : List JustifiedRow) (r : JustifiedRow) :
    flattenRows (rows ++ [r]) = flattenRows rows ++ rowItemsOf r := by
  simp [flattenRows]

theorem flattenRows_pushRow (cw g b : ℚ) (rows : List JustifiedRow)
    (l : List JustifiedItem) :
    flattenRows (pushRow cw g b rows l) = flattenRows rows ++ l := by
  cases l with
  | nil => simp [pushRow]
  | cons x xs =>
    rw [pushRow, flattenRows_append, rowItemsOf_mkRow]

theorem computeRowsLoop_flatten (cw g b : ℚ) (rest : List JustifiedItem) :
    ∀ (cur : List JustifiedItem) (cwb : ℚ) (rows : List JustifiedRow),
      flattenRows (computeRowsLoop cw g b rest cur cwb rows) =
        flattenRows rows ++ cur ++ rest := by
  induction rest with
  | nil =>
    intro cur cwb rows
    rw [computeRowsLoop]
    by_cases h : cur.length ≠ 0
    · rw [if_pos h, flattenRows_pushRow]
      simp
    · simp only [ne_eq, not_not, List.length_eq_zero] at h
      subst h
      simp
  | cons it rest ih =>
    intro cur cwb rows
    rw [computeRowsLoop]
    by_cases h : 0 < cur.length ∧
        cwb + it.aspectRatio * b + g * (cur.length : ℚ) > cw * (23/20)
    · rw [if_pos h, ih, flattenRows_pushRow]
      simp
    · rw [if_neg h, ih]
      simp

/-! ## Claims about the layout engine -/

/-- C1: for every container width > 0 and non-empty item list,
`computeRows` places every input item in exactly one output row: the
concatenation of the rows' item sequences, in order, is the input
list. -/
theorem computeRows_partition (items : List JustifiedItem) (cw g b : ℚ)
    (hcw : 0 < cw) (hne : items ≠ []) :
    flattenRows (computeRows items cw g b) = items := by
  rw [computeRows, if_neg, computeRowsLoop_flatten]
  · simp [flattenRows]
  · push_neg
    exact ⟨hcw, by simpa using hne⟩

/-- Witness for C1 at a concrete input. -/
theorem computeRows_partition_witness :
    (0 : ℚ) < 100 ∧ ([(⟨"a.jpg", 1⟩ : JustifiedItem)] ≠ []) ∧
      flattenRows (computeRows [⟨"a.jpg", 1⟩] 100 10 200) = [⟨"a.jpg", 1⟩] :=
  ⟨by norm_num, by simp,
    computeRows_partition [⟨"a.jpg", 1⟩] 100 10 200 (by norm_num) (by simp)⟩

/-- C2: `computeRows` is deterministic: two invocations with identical
item lists, container widths, gaps and base row heights produce
identical row lists (it is a pure function of its four arguments; the
embedding carries no other state). -/
theorem computeRows_deterministic
    (items1 items2 : List JustifiedItem) (cw1 cw2 g1 g2 b1 b2 : ℚ)
    (hitems : items1 = items2) (hcw : cw1 = cw2) (hg : g1 = g2) (hb : b1 = b2) :
    computeRows items1 cw1 g1 b1 = computeRows items2 cw2 g2 b2 := by
  rw [hitems, hcw, hg, hb]

/-- Witness for C2 at a concrete input. -/
theorem computeRows_deterministic_witness :
    computeRows [(⟨"a.jpg", 1⟩ : JustifiedItem)] 100 10 200 =
      computeRows [⟨"a.jpg", 1⟩] 100 10 200 :=
  computeRows_deterministic [⟨"a.jpg", 1⟩] [⟨"a.jpg", 1⟩] 100 100 10 10 200 200
    rfl rfl rfl rfl

/-- C9: `computeRows` returns the empty row list on degenerate inputs:
a non-positive container width or an empty item list. -/
theorem computeRows_degenerate (items : List JustifiedItem) (cw g b : ℚ)
    (h : cw ≤ 0 ∨ items = []) :
    computeRows items cw g b = [] := by
  rw [computeRows, if_pos]
  rcases h with h | h
  · exact Or.inl h
  · exact Or.inr (by simp [h])

/-- Witness for C9 at concrete inputs. -/
theorem computeRows_degenerate_witness :
    computeRows [(⟨"a.jpg", 1⟩ : JustifiedItem)] 0 10 200 = [] ∧
      computeRows [] 900 10 200 = [] :=
  ⟨computeRows_degenerate [⟨"a.jpg", 1⟩] 0 10 200 (Or.inl le_rfl),
    computeRows_degenerate [] 900 10 200 (Or.inr rfl)⟩

theorem mem_pushRow (cw g b : ℚ) (rows : List JustifiedRow)
    (l : List JustifiedItem) (r : JustifiedRow)
    (h : r ∈ pushRow cw g b rows l) :
    r ∈ rows ∨ (l ≠ [] ∧ r = mkRow cw g b l) := by
  cases l with
  | nil => exact Or.inl h
  | cons x xs =>
    simp only [pushRow] at h
    rcases List.mem_append.mp h with h | h
    · exact Or.inl h
    · exact Or.inr ⟨by simp, by simpa using h⟩

theorem mem_computeRowsLoop (cw g b : ℚ) (rest : List JustifiedItem) :
    ∀ (cur : List JustifiedItem) (cwb : ℚ) (rows : List JustifiedRow)
      (r : JustifiedRow), r ∈ computeRowsLoop cw g b rest cur cwb rows →
      r ∈ rows ∨ ∃ l, l ≠ [] ∧ r = mkRow cw g b l := by
  induction rest with
  | nil =>
    intro cur cwb rows r h
    rw [computeRowsLoop] at h
    by_cases hc : cur.length ≠ 0
    · rw [if_pos hc] at h
      rcases mem_pushRow cw g b rows cur r h with h | ⟨hl, he⟩
      · exact Or.inl h
      · exact Or.inr ⟨cur, hl, he⟩
    · rw [if_neg hc] at h
      exact Or.inl h
  | cons it rest ih =>
    intro cur cwb rows r h
    rw [computeRowsLoop] at h
    by_cases hc : 0 < cur.length ∧
        cwb + it.aspectRatio * b + g * (cur.length : ℚ) > cw * (23/20)
    · rw [if_pos hc] at h
      rcases ih [it] (it.aspectRatio * b) _ r h with h | h
      · rcases mem_pushRow cw g b rows cur r h with h2 | ⟨hl, he⟩
        · exact Or.inl h2
        · exact Or.inr ⟨cur, hl, he⟩
      · exact Or.inr h
    · rw [if_neg hc] at h
      exact ih (cur ++ [it]) (cwb + it.aspectRatio * b) rows r h

theorem mem_computeRows (items : List JustifiedItem) (cw g b : ℚ)
    (r : JustifiedRow) (h : r ∈ computeRows items cw g b) :
    ∃ l, l ≠ [] ∧ r = mkRow cw g b l := by
  rw [computeRows] at h
  by_cases hg : cw ≤ 0 ∨ items.length = 0
  · rw [if_pos hg] at h
    simp at h
  · rw [if_neg hg] at h
    rcases mem_computeRowsLoop cw g b items [] 0 [] r h with h | h
    · simp at h
    · exact h

theorem mkRow_height (cw g b : ℚ) (l : List JustifiedItem) :
    (mkRow cw g b l).height =
      max 80 (min (b * (1 + (getFilenameSeed l.headI.src - 1/2) * (12/100)))
        ((cw - g * ((l.length : ℚ) - 1)) /
          ((l.map (fun it => it.aspectRatio)).sum) * (6/5))) := rfl

theorem rowExactFill_mkRow (cw g b : ℚ) (l : List JustifiedItem) :
    rowExactFill cw g (mkRow cw g b l) =
      (cw - g * ((l.length : ℚ) - 1)) /
        ((l.map (fun it => it.aspectRatio)).sum) := by
  simp [rowExactFill, mkRow, Function.comp_def]

/-- C5: every output row's final height is at least the configured
floor of 80. -/
theorem computeRows_height_floor (items : List JustifiedItem) (cw g b : ℚ)
    (r : JustifiedRow) (h : r ∈ computeRows items cw g b) :
    80 ≤ r.height := by
  rcases mem_computeRows items cw g b r h with ⟨l, _, he⟩
  subst he
  rw [mkRow_height]
  exact le_max_left _ _

/-- Witness for C5 at a concrete input. -/
theorem computeRows_height_floor_witness :
    (mkRow 100 10 200 [⟨"a.jpg", 1⟩] ∈
        computeRows [(⟨"a.jpg", 1⟩ : JustifiedItem)] 100 10 200) ∧
      80 ≤ (mkRow 100 10 200 [⟨"a.jpg", 1⟩]).height := by
  have hm : mkRow 100 10 200 [⟨"a.jpg", 1⟩] ∈
      computeRows [(⟨"a.jpg", 1⟩ : JustifiedItem)] 100 10 200 := by
    norm_num [computeRows, computeRowsLoop, pushRow]
  exact ⟨hm, computeRows_height_floor [⟨"a.jpg", 1⟩] 100 10 200 _ hm⟩

/-- C4 (amended): every output row's final height is at most the
maximum of the 80 floor and 1.2 times that row's exact-fill height; in
particular the 1.2x cap holds whenever it is not below the floor.  (The
claim's unconditional 1.2x bound fails: the floor is applied after the
cap.) -/
theorem computeRows_height_cap (items : List JustifiedItem) (cw g b : ℚ)
    (r : JustifiedRow) (h : r ∈ computeRows items cw g b) :
    r.height ≤ max 80 (rowExactFill cw g r * (6/5)) := by
  rcases mem_computeRows items cw g b r h with ⟨l, _, he⟩
  subst he
  rw [mkRow_height, rowExactFill_mkRow]
  exact max_le_max le_rfl (min_le_right _ _)

/-- Witness for the amended C4 at a concrete input. -/
theorem computeRows_height_cap_witness :
    (mkRow 100 10 200 [⟨"b.jpg", 1⟩] ∈
        computeRows [(⟨"b.jpg", 1⟩ : JustifiedItem)] 100 10 200) ∧
      (mkRow 100 10 200 [⟨"b.jpg", 1⟩]).height ≤
        max 80 (rowExactFill 100 10 (mkRow 100 10 200 [⟨"b.jpg", 1⟩]) * (6/5)) := by
  have hm : mkRow 100 10 200 [⟨"b.jpg", 1⟩] ∈
      computeRows [(⟨"b.jpg", 1⟩ : JustifiedItem)] 100 10 200 := by
    norm_num [computeRows, computeRowsLoop, pushRow]
  exact ⟨hm, computeRows_height_cap [⟨"b.jpg", 1⟩] 100 10 200 _ hm⟩

/-- Counterexample to C4 as stated: a single item of aspect ratio 3.5
in a 100-wide container gets the floor height 80, which exceeds 1.2
times the row's exact-fill height 200/7. -/
theorem computeRows_height_cap_counterexample :
    ∃ r, r ∈ computeRows [(⟨"a.jpg", 7/2⟩ : JustifiedItem)] 100 14 200 ∧
      rowExactFill 100 14 r * (6/5) < r.height := by
  refine ⟨mkRow 100 14 200 [⟨"a.jpg", 7/2⟩], ?_, ?_⟩
  · norm_num [computeRows, computeRowsLoop, pushRow]
  · have hseed : getFilenameSeed "a.jpg" = (10529 : ℚ) / 100000 :=
      getFilenameSeed_eq _ _ (by decide)
    rw [mkRow_height, rowExactFill_mkRow]
    simp only [List.headI, List.length_cons, List.length_nil, List.map_cons,
      List.map_nil, List.sum_cons, List.sum_nil, hseed]
    rw [min_eq_right (by norm_num), max_eq_left (by norm_num)]
    norm_num

theorem map_rowItemsOf_pushRow (cw g b : ℚ) (rows : List JustifiedRow)
    (x : JustifiedItem) (xs : List JustifiedItem) :
    (pushRow cw g b rows (x :: xs)).map rowItemsOf =
      rows.map rowItemsOf ++ [x :: xs] := by
  simp only [pushRow, List.map_append, List.map_cons, List.map_nil,
    rowItemsOf_mkRow]

theorem computeRowsLoop_spec (cw g b : ℚ) (rest : List JustifiedItem) :
    ∀ (cur : List JustifiedItem) (cwb : ℚ) (rows : List JustifiedRow),
      cwb = (cur.map (fun it => it.aspectRatio * b)).sum →
      (computeRowsLoop cw g b rest cur cwb rows).map rowItemsOf =
        rows.map rowItemsOf ++ specPartitionGo cw g b rest cur := by
  induction rest with
  | nil =>
    intro cur cwb rows hc
    rw [computeRowsLoop, specPartitionGo]
    cases cur with
    | nil => simp
    | cons x xs =>
      rw [if_pos (by simp), if_neg (by simp), map_rowItemsOf_pushRow]
  | cons it rest ih =>
    intro cur cwb rows hc
    have hest : estimateWidth g b (cur ++ [it]) =
        cwb + it.aspectRatio * b + g * (cur.length : ℚ) := by
      subst hc
      simp [estimateWidth]
    rw [computeRowsLoop, specPartitionGo]
    by_cases h : 0 < cur.length ∧
        cwb + it.aspectRatio * b + g * (cur.length : ℚ) > cw * (23/20)
    · have hs : cur ≠ [] ∧
          estimateWidth g b (cur ++ [it]) > cw * (23/20) := by
        rw [hest]
        exact ⟨List.ne_nil_of_length_pos h.1, h.2⟩
      rw [if_pos h, if_pos hs, ih [it] (it.aspectRatio * b) _ (by simp)]
      cases cur with
      | nil => exact absurd rfl hs.1
      | cons x xs => rw [map_rowItemsOf_pushRow]; simp
    · have hs : ¬(cur ≠ [] ∧
          estimateWidth g b (cur ++ [it]) > cw * (23/20)) := by
        rw [hest]
        intro hcon
        exact h ⟨List.length_pos_of_ne_nil hcon.1, hcon.2⟩
      rw [if_neg h, if_neg hs]
      exact ih (cur ++ [it]) (cwb + it.aspectRatio * b) rows (by simp [hc])

theorem specPartitionGo_ne_nil (cw g b : ℚ) (rest : List JustifiedItem) :
    ∀ (cur l : List JustifiedItem),
      l ∈ specPartitionGo cw g b rest cur → l ≠ [] := by
  induction rest with
  | nil =>
    intro cur l hl
    rw [specPartitionGo] at hl
    by_cases h : cur = []
    · rw [if_pos h] at hl
      simp at hl
    · rw [if_neg h] at hl
      simp only [List.mem_singleton] at hl
      subst hl
      exact h
  | cons it rest ih =>
    intro cur l hl
    rw [specPartitionGo] at hl
    by_cases h : cur ≠ [] ∧
        estimateWidth g b (cur ++ [it]) > cw * (23/20)
    · rw [if_pos h] at hl
      rcases List.mem_cons.mp hl with hl | hl
      · subst hl
        exact h.1
      · exact ih [it] l hl
    · rw [if_neg h] at hl
      exact ih (cur ++ [it]) l hl

/-- C6: the greedy loop of `computeRows` closes rows exactly as the
spec's break rule describes: its row partition coincides with the
reference partition that closes the current row precisely when it is
non-empty and adding the next item would push the estimated width
(aspect sums at base height plus gaps) past `containerWidth * 1.15`;
consequently every output row holds at least one item. -/
theorem computeRows_break_rule (items : List JustifiedItem) (cw g b : ℚ)
    (hcw : 0 < cw) :
    (computeRows items cw g b).map rowItemsOf = specPartition items cw g b ∧
      ∀ l ∈ specPartition items cw g b, l ≠ [] := by
  constructor
  · rw [computeRows, specPartition]
    by_cases hg : cw ≤ 0 ∨ items.length = 0
    · rcases hg with hg | hg
      · exact absurd hcw (not_lt.mpr hg)
      · rw [if_pos (Or.inr hg)]
        rw [List.length_eq_zero] at hg
        subst hg
        rw [specPartitionGo]
        simp
    · rw [if_neg hg, computeRowsLoop_spec cw g b items [] 0 [] (by simp)]
      simp
  · intro l hl
    exact specPartitionGo_ne_nil cw g b items [] l hl

/-- Witness for C6 at a concrete input. -/
theorem computeRows_break_rule_witness :
    (0 : ℚ) < 900 ∧
      ((computeRows [(⟨"a.jpg", 1⟩ : JustifiedItem)] 900 10 200).map rowItemsOf =
          specPartition [⟨"a.jpg", 1⟩] 900 10 200 ∧
        ∀ l ∈ specPartition [(⟨"a.jpg", 1⟩ : JustifiedItem)] 900 10 200, l ≠ []) :=
  ⟨by norm_num, computeRows_break_rule [⟨"a.jpg", 1⟩] 900 10 200 (by norm_num)⟩

theorem rowWidthSum_mkRow (cw g b : ℚ) (l : List JustifiedItem) :
    rowWidthSum (mkRow cw g b l) =
      ((l.map (fun it => it.aspectRatio)).sum) * (mkRow cw g b l).height := by
  simp only [rowWidthSum, mkRow, List.map_map, Function.comp_def]
  rw [← List.sum_map_mul_right]

/-- Counterexample to C3 as stated: for three unit-aspect items at
`containerWidth = 900, gap = 10, baseRowHeight = 200` the single row's
widths sum to about 571.6 (three times the jittered target height), far
from `900 - 2*10 = 880`: the jittered target is below the exact-fill
height, so the clamp never stretches the row to fill the container. -/
theorem computeRows_three_unit_items_counterexample :
    ∃ r, computeRows
        [(⟨"a.jpg", 1⟩ : JustifiedItem), ⟨"b.jpg", 1⟩, ⟨"c.jpg", 1⟩]
        900 10 200 = [r] ∧ rowWidthSum r < 700 := by
  have hseed : getFilenameSeed "a.jpg" = (10529 : ℚ) / 100000 :=
    getFilenameSeed_eq _ _ (by decide)
  refine ⟨mkRow 900 10 200 [⟨"a.jpg", 1⟩, ⟨"b.jpg", 1⟩, ⟨"c.jpg", 1⟩], ?_, ?_⟩
  · norm_num [computeRows, computeRowsLoop, pushRow]
  · rw [rowWidthSum_mkRow, mkRow_height]
    simp only [List.headI, List.length_cons, List.length_nil, List.map_cons,
      List.map_nil, List.sum_cons, List.sum_nil, hseed]
    rw [min_eq_left (by norm_num), max_eq_right (by norm_num)]
    norm_num

/-- C3 (amended): for items `[{ar:1},{ar:1},{ar:1}]` with
`containerWidth = 900, gap = 10, baseRowHeight = 200`, all three items
pack into a single row (estimate 620 stays below 900 * 1.15 = 1035),
and that row's widths sum to three times the jittered target height —
a value in `[564, 636)`, not near 880. -/
theorem computeRows_three_unit_items (sa sb sc : String) :
    ∃ r, computeRows [(⟨sa, 1⟩ : JustifiedItem), ⟨sb, 1⟩, ⟨sc, 1⟩]
        900 10 200 = [r] ∧ 564 ≤ rowWidthSum r ∧ rowWidthSum r < 636 := by
  obtain ⟨h0, h1⟩ := getFilenameSeed_bounds sa
  refine ⟨mkRow 900 10 200 [⟨sa, 1⟩, ⟨sb, 1⟩, ⟨sc, 1⟩], ?_, ?_⟩
  · norm_num [computeRows, computeRowsLoop, pushRow]
  · rw [rowWidthSum_mkRow, mkRow_height]
    simp only [List.headI, List.length_cons, List.length_nil, List.map_cons,
      List.map_nil, List.sum_cons, List.sum_nil]
    rw [min_eq_left (by nlinarith), max_eq_right (by nlinarith)]
    constructor <;> nlinarith

/-! ## Claims about the thumbnail pipeline and aspect resolution -/

/-- C7: the thumbnail build pipeline resizes the `w`-variant of every
image to exactly `min(nativeWidth, w)` for `w` in {400, 800, 1200} — it
never upscales.  A native width of 2000 yields variant widths
400/800/1200; a native width of 300 yields all three variants at 300. -/
theorem buildVariants_no_upscale (origWidth : ℕ) :
    (buildVariants origWidth).map ThumbVariant.width =
        [min origWidth 400, min origWidth 800, min origWidth 1200] ∧
      (∀ v ∈ buildVariants origWidth, v.width ≤ origWidth) ∧
      (buildVariants 2000).map ThumbVariant.width = [400, 800, 1200] ∧
      (buildVariants 300).map ThumbVariant.width = [300, 300, 300] := by
  refine ⟨by simp [buildVariants, thumbWidths], ?_, by decide, by decide⟩
  intro v hv
  simp only [buildVariants, thumbWidths, List.map_cons, List.map_nil,
    List.mem_cons, List.not_mem_nil, or_false] at hv
  rcases hv with h | h | h <;> subst h <;> exact Nat.min_le_left _ _

/-- Witness for C7 at a concrete input (projection of the universally
quantified conjunct at native width 2000 and the first variant). -/
theorem buildVariants_no_upscale_witness :
    (⟨400, 40⟩ : ThumbVariant) ∈ buildVariants 2000 ∧ (400 : ℕ) ≤ 2000 :=
  ⟨by decide, (buildVariants_no_upscale 2000).2.1 ⟨400, 40⟩ (by decide)⟩

/-- C8: per-item aspect resolution is total and never propagates an
error: a failed load resolves to the default ratio 1, a zero natural
height resolves to 1, and a failed load is afterwards treated exactly
like a successfully loaded square (ratio-1) image — the deterministic
tweak and the clamp to [0.3, 3.5] are applied to the default just as to
a real ratio, and the resolved value always lands in [0.3, 3.5]. -/
theorem loadImageAspect_defaults :
    loadImageAspect .failed = 1 ∧
      (∀ w : ℕ, loadImageAspect (.loaded w 0) = 1) ∧
      (∀ src : String, resolveAspect src .failed = resolveAspect src (.loaded 1 1)) ∧
      (∀ (src : String) (res : ImageLoadResult),
        3/10 ≤ resolveAspect src res ∧ resolveAspect src res ≤ 35/10) := by
  refine ⟨rfl, fun w => by simp [loadImageAspect], fun src => ?_, fun src res => ?_⟩
  · simp [resolveAspect, loadImageAspect]
  · constructor
    · exact le_max_left _ _
    · exact max_le (by norm_num) (min_le_left _ _)

theorem sorted_getD_mono (arr : List ℚ) (hs : arr.Sorted (· ≤ ·))
    (i j : ℕ) (hij : i ≤ j) (hj : j < arr.length) :
    arr.getD i 0 ≤ arr.getD j 0 := by
  have hi : i < arr.length := lt_of_le_of_lt hij hj
  rw [List.getD_eq_get arr 0 hi, List.getD_eq_get arr 0 hj]
  exact hs.rel_get_of_le hij

theorem lowerBoundGo_correct (arr : List ℚ) (target : ℚ)
    (hs : arr.Sorted (· ≤ ·)) (hlen : arr.length ≤ 2 ^ 31) :
    ∀ (fuel lo hi : ℕ), hi - lo ≤ fuel → lo ≤ hi → hi ≤ arr.length →
      (∀ j, j < lo → arr.getD j 0 < target) →
      (∀ j, hi ≤ j → j < arr.length → target ≤ arr.getD j 0) →
      lowerBoundGo arr target fuel lo hi ≤ arr.length ∧
        (∀ j, j < lowerBoundGo arr target fuel lo hi → arr.getD j 0 < target) ∧
        (∀ j, lowerBoundGo arr target fuel lo hi ≤ j → j < arr.length →
          target ≤ arr.getD j 0) := by
  intro fuel
  induction fuel with
  | zero =>
    intro lo hi hfuel hlohi hhi hbelow habove
    have heq : lo = hi := by omega
    rw [lowerBoundGo]
    exact ⟨heq ▸ hhi, hbelow, heq ▸ habove⟩
  | succ fuel ih =>
    intro lo hi hfuel hlohi hhi hbelow habove
    rw [lowerBoundGo]
    by_cases h : lo < hi
    · rw [if_pos h]
      have hmod : (lo + hi) % 4294967296 = lo + hi := by
        apply Nat.mod_eq_of_lt
        have h31 : (2 : ℕ) ^ 31 = 2147483648 := by norm_num
        omega
      have hmid_lo : lo ≤ (lo + hi) % 4294967296 / 2 := by omega
      have hmid_hi : (lo + hi) % 4294967296 / 2 < hi := by omega
      by_cases hcmp : arr.getD ((lo + hi) % 4294967296 / 2) 0 < target
      · rw [if_pos hcmp]
        apply ih ((lo + hi) % 4294967296 / 2 + 1) hi (by omega) (by omega) hhi
        · intro j hj
          exact lt_of_le_of_lt
            (sorted_getD_mono arr hs j ((lo + hi) % 4294967296 / 2)
              (by omega) (by omega)) hcmp
        · exact habove
      · rw [if_neg hcmp]
        apply ih lo ((lo + hi) % 4294967296 / 2) (by omega) (by omega) (by omega)
          hbelow
        intro j hj hjlen
        exact le_trans (not_lt.mp hcmp)
          (sorted_getD_mono arr hs ((lo + hi) % 4294967296 / 2) j hj hjlen)
    · rw [if_neg h]
      have heq : lo = hi := by omega
      exact ⟨heq ▸ hhi, hbelow, heq ▸ habove⟩

/-- C10: on an ascending-sorted array, `lowerBound` returns the least
index whose element is at least the target (the array's length when no
such index exists): every index below the result holds a value strictly
below the target, every index at or above it holds a value at least the
target, and the result never exceeds the length.  The length bound
`2^31` keeps the JS `(lo + hi) >>> 1` truncation exact. -/
theorem lowerBound_correct (arr : List ℚ) (target : ℚ)
    (hs : arr.Sorted (· ≤ ·)) (hlen : arr.length ≤ 2 ^ 31) :
    lowerBound arr target ≤ arr.length ∧
      (∀ j, j < lowerBound arr target → arr.getD j 0 < target) ∧
      (∀ j, lowerBound arr target ≤ j → j < arr.length →
        target ≤ arr.getD j 0) := by
  exact lowerBoundGo_correct arr target hs hlen arr.length 0 arr.length
    (by omega) (Nat.zero_le _) le_rfl (by omega) (by omega)

/-- Witness for C10 at a concrete input. -/
theorem lowerBound_correct_witness :
    ([(0 : ℚ), 10, 20].Sorted (· ≤ ·)) ∧
      ([(0 : ℚ), 10, 20].length ≤ 2 ^ 31) ∧
      (lowerBound [(0 : ℚ), 10, 20] 5 ≤ [(0 : ℚ), 10, 20].length ∧
        (∀ j, j < lowerBound [(0 : ℚ), 10, 20] 5 →
          [(0 : ℚ), 10, 20].getD j 0 < 5) ∧
        (∀ j, lowerBound [(0 : ℚ), 10, 20] 5 ≤ j →
          j < [(0 : ℚ), 10, 20].length → 5 ≤ [(0 : ℚ), 10, 20].getD j 0)) := by
  have hs : [(0 : ℚ), 10, 20].Sorted (· ≤ ·) := by
    norm_num [List.sorted_cons]
  have hl : [(0 : ℚ), 10, 20].length ≤ 2 ^ 31 := by norm_num
  exact ⟨hs, hl, lowerBound_correct [(0 : ℚ), 10, 20] 5 hs hl⟩
